import Mathlib

/-!
Verification of the robco password-narrowing tool.

The source (src/main.rs, src/password.rs) is embedded shallowly:
strings are lists of characters, `split(' ')` is `splitOnSpace`,
`usize::from_str` is `parseUsize`, the `Password` enum and its methods
are translated one-to-one, and the filtering pipeline of `main` is
`valid_words` / `mainOutput`.  Line reading (`read_passwords`) models
standard input as a list of `Option (List Char)`, where `none` is a
line the reader failed to produce (an I/O error) and `some s` is a
successfully read line `s`.
-/

set_option autoImplicit false

deriving instance DecidableEq for Except

/-- Record model from src/password.rs: a candidate word, or a witness
word together with its observed distance. -/
inductive Password where
  | Candidate : List Char → Password
  | Witness : List Char → Nat → Password
deriving DecidableEq, Repr

/-- `Password::word`: the word text of either variant. -/
def Password.word : Password → List Char
  | Password.Candidate w => w
  | Password.Witness w _ => w

/-- `Password::distance`: the witnessed distance, absent for a candidate. -/
def Password.distance : Password → Option Nat
  | Password.Candidate _ => none
  | Password.Witness _ d => some d

/-- `Password::closeness_to`: zip the two words character-by-character,
keep the positions where they agree, and count them. -/
def Password.closeness_to (self other : Password) : Nat :=
  (((self.word).zip other.word).filter (fun p => p.1 == p.2)).length

/-- Parse-error kinds from src/password.rs. -/
inductive PasswordParseError where
  | NoInput
  | BadDistance
deriving DecidableEq, Repr

/-- Rust's `str::split(' ')` on a list of characters: always yields at
least one (possibly empty) segment, and empty segments between
consecutive separators are kept. -/
def splitOnSpace : List Char → List (List Char)
  | [] => [[]]
  | c :: cs =>
    if c = ' ' then [] :: splitOnSpace cs
    else
      match splitOnSpace cs with
      | [] => [[c]]
      | t :: ts => (c :: t) :: ts

/-- Rust's `usize::from_str`: an optional leading `+`, then one or more
decimal digits, rejecting the empty digit string, any non-digit, and
values that overflow a 64-bit machine word. -/
def parseUsize (s : List Char) : Option Nat :=
  let digits := match s with
    | '+' :: rest => rest
    | _ => s
  if digits = [] then none
  else if digits.all Char.isDigit then
    let v := digits.foldl (fun acc c => acc * 10 + (c.toNat - 48)) 0
    if v < 2 ^ 64 then some v else none
  else none

/-- `<Password as FromStr>::from_str`: the first segment is the word; no
second segment gives a candidate, a second segment must parse as a
distance (further segments are discarded). -/
def from_str (s : List Char) : Except PasswordParseError Password :=
  match splitOnSpace s with
  | [] => Except.error PasswordParseError.NoInput
  | w :: rest =>
    match rest with
    | [] => Except.ok (Password.Candidate w)
    | d :: _ =>
      match parseUsize d with
      | none => Except.error PasswordParseError.BadDistance
      | some n => Except.ok (Password.Witness w n)

/-- Failure kinds of the whole run, from src/main.rs. -/
inductive Failure where
  | Input
  | Validation
deriving DecidableEq, Repr

/-- `read_passwords` from src/main.rs: read lines in order, mapping a
line-read failure to `Input` and a parse failure to `Validation`; the
collect over results stops at the first error. -/
def read_passwords (lines : List (Option (List Char))) : Except Failure (List Password) :=
  match lines with
  | [] => Except.ok []
  | l :: rest =>
    match l with
    | none => Except.error Failure.Input
    | some s =>
      match from_str s with
      | Except.error _ => Except.error Failure.Validation
      | Except.ok p =>
        match read_passwords rest with
        | Except.error e => Except.error e
        | Except.ok ps => Except.ok (p :: ps)

/-- The consistency set built in `main` for one witness `w` with
distance `d`: the words of all records whose closeness to `w` is
exactly `d`, collected into a set (modelled as a deduplicated list). -/
def consistency_set (pairs : List Password) (w : Password) (d : Nat) : List (List Char) :=
  ((pairs.filter (fun other => other.closeness_to w == d)).map Password.word).dedup

/-- `valid_words` from `main`: one consistency set per witness record,
in record order; candidates contribute no set. -/
def valid_words (pairs : List Password) : List (List (List Char)) :=
  pairs.filterMap (fun p =>
    match p.distance with
    | none => none
    | some d => some (consistency_set pairs p d))

/-- The diagnostic line printed when no witness exists. -/
def noWitnessMsg : List Char := "At least one word must have a known distance".data

/-- The lines `main` prints once it holds the parsed record list: the
diagnostic if there is no consistency set, otherwise the members of the
first set that lie in every remaining set. -/
def mainOutput (pairs : List Password) : List (List Char) :=
  match valid_words pairs with
  | [] => [noWitnessMsg]
  | first :: rest => first.filter (fun w => rest.all (fun s => s.contains w))

/-- The lines the whole program prints to standard output: nothing when
reading fails (the process panics), otherwise what `main` prints for
the parsed records. -/
def outputLines (lines : List (Option (List Char))) : List (List Char) :=
  match read_passwords lines with
  | Except.error _ => []
  | Except.ok pairs => mainOutput pairs

/-- The failure kind produced by the first bad line: `Input` for a line
the reader could not produce, `Validation` for a line that fails to
parse. -/
def failKind : Option (List Char) → Failure
  | none => Failure.Input
  | some _ => Failure.Validation

/-- A line that reads and parses successfully. -/
def lineOk : Option (List Char) → Bool
  | none => false
  | some s =>
    match from_str s with
    | Except.ok _ => true
    | Except.error _ => false

/-! ### Auxiliary lemmas -/

theorem splitOnSpace_ne_nil (s : List Char) : splitOnSpace s ≠ [] := by
  induction s with
  | nil => simp [splitOnSpace]
  | cons c cs ih =>
    simp only [splitOnSpace]
    split
    · simp
    · split <;> simp

theorem count_zip_eq_count_range (xs ys : List Char) :
    ((xs.zip ys).filter (fun p => p.1 == p.2)).length =
      ((List.range (min xs.length ys.length)).filter
        (fun i => xs.getD i default == ys.getD i default)).length := by
  induction xs generalizing ys with
  | nil => simp
  | cons x xs ih =>
    cases ys with
    | nil => simp
    | cons y ys =>
      have hps : ∀ i ∈ List.range (min xs.length ys.length),
          ((fun i => (x :: xs).getD i default == (y :: ys).getD i default) ∘ Nat.succ) i
            = (fun i => xs.getD i default == ys.getD i default) i := by
        intro i _
        simp [Function.comp]
      have hR : ((List.range (min (x :: xs).length (y :: ys).length)).filter
            (fun i => (x :: xs).getD i default == (y :: ys).getD i default)).length
          = (if (x == y) = true then 1 else 0) +
            ((List.range (min xs.length ys.length)).filter
              (fun i => xs.getD i default == ys.getD i default)).length := by
        rw [List.length_cons, List.length_cons, Nat.succ_min_succ, List.range_succ_eq_map,
          List.filter_cons, List.filter_map, List.filter_congr hps]
        simp only [List.getD_cons_zero]
        split <;> simp [Nat.add_comm]
      calc (((x :: xs).zip (y :: ys)).filter (fun p => p.1 == p.2)).length
          = (if (x == y) = true then 1 else 0) +
            ((xs.zip ys).filter (fun p => p.1 == p.2)).length := by
            simp only [List.zip_cons_cons, List.filter_cons]
            split <;> simp [Nat.add_comm]
        _ = (if (x == y) = true then 1 else 0) +
            ((List.range (min xs.length ys.length)).filter
              (fun i => xs.getD i default == ys.getD i default)).length := by rw [ih ys]
        _ = ((List.range (min (x :: xs).length (y :: ys).length)).filter
              (fun i => (x :: xs).getD i default == (y :: ys).getD i default)).length :=
            hR.symm

/-! ### Claim theorems: closeness -/

/-- C4: `closeness_to a b` counts exactly the 0-based index positions
`i < min (length a.word) (length b.word)` at which the two words agree;
positions past the shorter word contribute nothing. -/
theorem closeness_to_counts_matching_positions (a b : Password) :
    a.closeness_to b =
      ((List.range (min a.word.length b.word.length)).filter
        (fun i => a.word.getD i default == b.word.getD i default)).length :=
  count_zip_eq_count_range a.word b.word

/-- C5: closeness is symmetric in its two records. -/
theorem closeness_to_comm (a b : Password) :
    a.closeness_to b = b.closeness_to a := by
  unfold Password.closeness_to
  generalize a.word = xs
  generalize b.word = ys
  induction xs generalizing ys with
  | nil => simp
  | cons x xs ih =>
    cases ys with
    | nil => simp
    | cons y ys =>
      by_cases hxy : x = y
      · simp [hxy, List.filter_cons, ih ys]
      · simp [List.filter_cons, hxy, Ne.symm hxy, ih ys]

/-- C6: a record's closeness to itself is the length of its word. -/
theorem closeness_to_self (a : Password) :
    a.closeness_to a = a.word.length := by
  unfold Password.closeness_to
  generalize a.word = xs
  induction xs with
  | nil => simp
  | cons x xs ih => simp [List.filter_cons, ih]

/-! ### Parsing lemmas -/

theorem splitOnSpace_no_space (s : List Char) :
    ∀ t ∈ splitOnSpace s, ' ' ∉ t := by
  induction s with
  | nil =>
    intro t ht
    simp [splitOnSpace] at ht
    simp [ht]
  | cons c cs ih =>
    intro t ht
    simp only [splitOnSpace] at ht
    by_cases hc : c = ' '
    · rw [if_pos hc] at ht
      rcases List.mem_cons.1 ht with h | h
      · simp [h]
      · exact ih t h
    · rw [if_neg hc] at ht
      cases hsp : splitOnSpace cs with
      | nil => exact absurd hsp (splitOnSpace_ne_nil cs)
      | cons t0 ts =>
        rw [hsp] at ht
        rcases List.mem_cons.1 ht with h | h
        · subst h
          intro hmem
          rcases List.mem_cons.1 hmem with h | h
          · exact hc h.symm
          · exact ih t0 (hsp ▸ List.mem_cons_self t0 ts) h
        · exact ih t (hsp ▸ List.mem_cons_of_mem t0 h)

/-! ### Claim theorems: parsing -/

/-- C10: splitting any string on the space character yields at least one
segment, so `from_str` can never return the `NoInput` error kind. -/
theorem from_str_never_NoInput (s : List Char) :
    from_str s ≠ Except.error PasswordParseError.NoInput := by
  unfold from_str
  cases hsp : splitOnSpace s with
  | nil => exact absurd hsp (splitOnSpace_ne_nil s)
  | cons w rest =>
    cases rest with
    | nil => simp
    | cons d ds => cases hn : parseUsize d <;> simp [hn]

/-- C3: a one-segment line parses to a `Candidate`; a line with two or
more segments parses to a `Witness` from the first two segments,
discarding the rest, and fails with `BadDistance` exactly when the
second segment is not a valid non-negative integer. -/
theorem from_str_tokens (s : List Char) :
    (∀ w, splitOnSpace s = [w] → from_str s = Except.ok (Password.Candidate w)) ∧
    (∀ w d rest, splitOnSpace s = w :: d :: rest →
      (∀ n, parseUsize d = some n → from_str s = Except.ok (Password.Witness w n)) ∧
      (parseUsize d = none → from_str s = Except.error PasswordParseError.BadDistance)) := by
  constructor
  · intro w hsp
    simp only [from_str, hsp]
  · intro w d rest hsp
    constructor
    · intro n hn
      simp only [from_str, hsp, hn]
    · intro hn
      simp only [from_str, hsp, hn]

theorem from_str_tokens_witness :
    from_str ['a', 'b', ' ', '2', ' ', 'j'] = Except.ok (Password.Witness ['a', 'b'] 2) ∧
    from_str ['a', 'b'] = Except.ok (Password.Candidate ['a', 'b']) ∧
    from_str ['a', ' ', 'x'] = Except.error PasswordParseError.BadDistance := by
  refine ⟨?_, ?_, ?_⟩
  · exact ((from_str_tokens ['a', 'b', ' ', '2', ' ', 'j']).2 ['a', 'b'] ['2'] [['j']]
      (by decide)).1 2 (by decide)
  · exact (from_str_tokens ['a', 'b']).1 ['a', 'b'] (by decide)
  · exact ((from_str_tokens ['a', ' ', 'x']).2 ['a'] ['x'] [] (by decide)).2 (by decide)

/-- C9 (amended): every successfully parsed record's word contains no
space character (it is a segment of a split on spaces); non-emptiness
does not hold, see `parsed_word_nonempty_false`. -/
theorem parsed_word_no_space (s : List Char) (r : Password)
    (h : from_str s = Except.ok r) : ' ' ∉ r.word := by
  cases hsp : splitOnSpace s with
  | nil => exact absurd hsp (splitOnSpace_ne_nil s)
  | cons w rest =>
    have hw : ' ' ∉ w := splitOnSpace_no_space s w (hsp ▸ List.mem_cons_self w rest)
    cases rest with
    | nil =>
      simp only [from_str, hsp, Except.ok.injEq] at h
      rw [← h]
      exact hw
    | cons d ds =>
      cases hn : parseUsize d with
      | none =>
        simp only [from_str, hsp, hn] at h
        exact absurd h (by simp)
      | some n =>
        simp only [from_str, hsp, hn, Except.ok.injEq] at h
        rw [← h]
        exact hw

theorem parsed_word_no_space_witness :
    from_str ['a', ' ', '2'] = Except.ok (Password.Witness ['a'] 2) ∧
    ' ' ∉ (Password.Witness ['a'] 2).word :=
  ⟨by decide, parsed_word_no_space ['a', ' ', '2'] (Password.Witness ['a'] 2) (by decide)⟩

/-- C9 (counterexample): the empty line parses successfully to a record
whose word is empty, so the claimed non-emptiness invariant fails. -/
theorem parsed_word_nonempty_false :
    ¬ (∀ (s : List Char) (r : Password), from_str s = Except.ok r → r.word ≠ []) :=
  fun h => absurd rfl (h [] (Password.Candidate []) rfl)

/-- C2 (counterexample): parsing the empty line is not a `NoInput`
failure, and the stream of one well-formed witness line followed by an
empty line runs to completion and prints a word. -/
theorem empty_line_not_failure :
    from_str [] ≠ Except.error PasswordParseError.NoInput ∧
    read_passwords [some ['a', 'b', ' ', '2'], some []] ≠ Except.error Failure.Validation ∧
    outputLines [some ['a', 'b', ' ', '2'], some []] = [['a', 'b']] := by
  refine ⟨by decide, by decide, by decide⟩

/-- C2 (amended): an empty line parses successfully to a `Candidate`
with the empty word; a stream of one well-formed witness line followed
by an empty line parses completely and the run proceeds to filtering
and may print output. -/
theorem empty_line_parses_as_candidate :
    from_str [] = Except.ok (Password.Candidate []) ∧
    read_passwords [some ['a', 'b', ' ', '2'], some []] =
      Except.ok [Password.Witness ['a', 'b'] 2, Password.Candidate []] ∧
    outputLines [some ['a', 'b', ' ', '2'], some []] = [['a', 'b']] := by
  refine ⟨by decide, by decide, by decide⟩

/-! ### Filtering-engine lemmas -/

theorem consistency_set_mem (pairs : List Password) (p : Password) (d : Nat)
    (w : List Char) :
    w ∈ consistency_set pairs p d ↔
      ∃ r ∈ pairs, Password.closeness_to r p = d ∧ Password.word r = w := by
  unfold consistency_set
  rw [List.mem_dedup, List.mem_map]
  constructor
  · rintro ⟨r, hr, hw⟩
    rw [List.mem_filter] at hr
    exact ⟨r, hr.1, by simpa using hr.2, hw⟩
  · rintro ⟨r, hr, hc, hw⟩
    exact ⟨r, List.mem_filter.2 ⟨hr, by simpa using hc⟩, hw⟩

theorem consistency_set_nodup (pairs : List Password) (p : Password) (d : Nat) :
    (consistency_set pairs p d).Nodup :=
  List.nodup_dedup _

theorem valid_words_mem (pairs : List Password) (s : List (List Char)) :
    s ∈ valid_words pairs ↔
      ∃ p ∈ pairs, ∃ d, Password.distance p = some d ∧ s = consistency_set pairs p d := by
  unfold valid_words
  rw [List.mem_filterMap]
  constructor
  · rintro ⟨p, hp, hf⟩
    cases hd : Password.distance p with
    | none => rw [hd] at hf; cases hf
    | some d =>
      rw [hd] at hf
      cases hf
      exact ⟨p, hp, d, hd, rfl⟩
  · rintro ⟨p, hp, d, hd, rfl⟩
    exact ⟨p, hp, by rw [hd]⟩

theorem valid_words_eq_nil (pairs : List Password) :
    valid_words pairs = [] ↔ ∀ p ∈ pairs, Password.distance p = none := by
  unfold valid_words
  rw [List.filterMap_eq_nil_iff]
  constructor <;> intro h p hp
  · have hf := h p hp
    cases hd : Password.distance p with
    | none => rfl
    | some d => rw [hd] at hf; cases hf
  · rw [h p hp]

theorem contains_iff_mem (l : List (List Char)) (w : List Char) :
    l.contains w = true ↔ w ∈ l := by
  simp [List.contains, List.elem_iff]

/-! ### Claim theorems: the filtering engine -/

/-- C1: when the record list holds at least one witness, a word is
printed exactly when, for every witness record `p` with distance `d`,
some record `r` of the list has `closeness_to r p = d` and word equal
to it (that is, when the word lies in every witness's consistency set);
and no word is printed twice. -/
theorem main_output_characterization (pairs : List Password)
    (h : ∃ p ∈ pairs, (Password.distance p).isSome = true) :
    (mainOutput pairs).Nodup ∧
    ∀ w : List Char, w ∈ mainOutput pairs ↔
      ∀ p ∈ pairs, ∀ d : Nat, Password.distance p = some d →
        ∃ r ∈ pairs, Password.closeness_to r p = d ∧ Password.word r = w := by
  obtain ⟨p0, hp0, hd0⟩ := h
  cases hvw : valid_words pairs with
  | nil =>
    exfalso
    rw [valid_words_eq_nil] at hvw
    rw [hvw p0 hp0] at hd0
    simp at hd0
  | cons first rest =>
    have hmo : mainOutput pairs = first.filter (fun w => rest.all (fun s => s.contains w)) := by
      unfold mainOutput
      rw [hvw]
    have hfm : first ∈ valid_words pairs := by
      rw [hvw]
      exact List.mem_cons_self first rest
    obtain ⟨pf, hpf, df, hdf, hfeq⟩ := (valid_words_mem pairs first).1 hfm
    have hnd : first.Nodup := by
      rw [hfeq]
      exact consistency_set_nodup pairs pf df
    refine ⟨?_, ?_⟩
    · rw [hmo]
      exact hnd.filter _
    · intro w
      rw [hmo, List.mem_filter]
      have hiff : (w ∈ first ∧ (rest.all fun s => s.contains w) = true) ↔
          ∀ s ∈ valid_words pairs, w ∈ s := by
        rw [hvw]
        simp only [List.all_eq_true, List.forall_mem_cons]
        constructor
        · rintro ⟨h1, h2⟩
          exact ⟨h1, fun s hs => (contains_iff_mem s w).1 (h2 s hs)⟩
        · rintro ⟨h1, h2⟩
          exact ⟨h1, fun s hs => (contains_iff_mem s w).2 (h2 s hs)⟩
      rw [hiff]
      constructor
      · intro hall p hp d hd
        exact (consistency_set_mem pairs p d w).1
          (hall _ ((valid_words_mem pairs _).2 ⟨p, hp, d, hd, rfl⟩))
      · intro hall s hs
        obtain ⟨p, hp, d, hd, rfl⟩ := (valid_words_mem pairs s).1 hs
        exact (consistency_set_mem pairs p d w).2 (hall p hp d hd)

theorem main_output_characterization_witness :
    (∃ p ∈ [Password.Witness ['a', 'b'] 2, Password.Candidate ['a', 'x']],
      (Password.distance p).isSome = true) ∧
    ((mainOutput [Password.Witness ['a', 'b'] 2, Password.Candidate ['a', 'x']]).Nodup ∧
    ∀ w : List Char,
      w ∈ mainOutput [Password.Witness ['a', 'b'] 2, Password.Candidate ['a', 'x']] ↔
      ∀ p ∈ [Password.Witness ['a', 'b'] 2, Password.Candidate ['a', 'x']],
        ∀ d : Nat, Password.distance p = some d →
          ∃ r ∈ [Password.Witness ['a', 'b'] 2, Password.Candidate ['a', 'x']],
            Password.closeness_to r p = d ∧ Password.word r = w) :=
  ⟨by decide, main_output_characterization
    [Password.Witness ['a', 'b'] 2, Password.Candidate ['a', 'x']] (by decide)⟩

/-- C7: when no record is a witness (or the list is empty), `main`
prints exactly the single diagnostic line and no candidate words. -/
theorem no_witness_diagnostic (pairs : List Password)
    (h : ∀ p ∈ pairs, Password.distance p = none) :
    mainOutput pairs = [noWitnessMsg] := by
  unfold mainOutput
  rw [(valid_words_eq_nil pairs).2 h]

theorem no_witness_diagnostic_witness :
    (∀ p ∈ [Password.Candidate ['a']], Password.distance p = none) ∧
    mainOutput [Password.Candidate ['a']] = [noWitnessMsg] :=
  ⟨by decide, no_witness_diagnostic [Password.Candidate ['a']] (by decide)⟩

theorem read_passwords_first_error (l : Option (List Char))
    (post : List (Option (List Char))) (hl : lineOk l = false) :
    ∀ pre, (∀ x ∈ pre, lineOk x = true) →
      read_passwords (pre ++ l :: post) = Except.error (failKind l) := by
  intro pre
  induction pre with
  | nil =>
    intro _
    cases l with
    | none => rfl
    | some s =>
      cases hfs : from_str s with
      | error e =>
        simp only [List.nil_append, read_passwords, hfs]
        rfl
      | ok p => simp [lineOk, hfs] at hl
  | cons x xs ih =>
    intro hpre
    have hx : lineOk x = true := hpre x (List.mem_cons_self x xs)
    cases x with
    | none => simp [lineOk] at hx
    | some s =>
      cases hfs : from_str s with
      | error e => simp [lineOk, hfs] at hx
      | ok p =>
        have ih2 := ih (fun y hy => hpre y (List.mem_cons_of_mem _ hy))
        simp only [List.cons_append, read_passwords, hfs, List.append_eq, ih2]

/-- C8: the first line that fails — to read (`none`) or to parse —
aborts the whole run with the failure kind of that line (`Input` for a
read failure, `Validation` for a parse failure): no record list is
produced and no output lines are printed. -/
theorem read_fail_fast (pre : List (Option (List Char))) (l : Option (List Char))
    (post : List (Option (List Char)))
    (hpre : ∀ x ∈ pre, lineOk x = true) (hl : lineOk l = false) :
    read_passwords (pre ++ l :: post) = Except.error (failKind l) ∧
    outputLines (pre ++ l :: post) = [] := by
  have hmain := read_passwords_first_error l post hl pre hpre
  refine ⟨hmain, ?_⟩
  unfold outputLines
  rw [hmain]

theorem read_fail_fast_witness :
    (read_passwords [some ['a', ' ', '1'], none] = Except.error Failure.Input ∧
      outputLines [some ['a', ' ', '1'], none] = []) ∧
    (read_passwords [some ['a', ' ', '1'], some ['b', ' ', 'x'], some ['c']] =
        Except.error Failure.Validation ∧
      outputLines [some ['a', ' ', '1'], some ['b', ' ', 'x'], some ['c']] = []) := by
  constructor
  · have h := read_fail_fast [some ['a', ' ', '1']] none [] (by decide) (by decide)
    simpa [failKind] using h
  · have h := read_fail_fast [some ['a', ' ', '1']] (some ['b', ' ', 'x'])
      [some ['c']] (by decide) (by decide)
    simpa [failKind] using h
